import Mathlib

/-!
Verification of the markdown-to-Notion converter
(`src/packages/md-to-notion/main/src/main.ts`).

The TypeScript source is shallowly embedded below: strings are modelled by
`String` / `List Char`, the inline tokenizer `parseInlineStyles` and the
line classifier `parseMarkdown` are translated into executable Lean
functions (cursor loops become fuel-indexed recursions, where the fuel is
the length of the remaining input — each loop iteration consumes at least
one character, so the fuel is never exhausted), and the HTTP adapter `main`
becomes a total function over an explicit argument record.
-/

set_option maxRecDepth 8000

namespace MdToNotion

/-- The JavaScript whitespace class `\s` (also used by `String.prototype.trim`):
space, tab, line terminators, vertical tab, form feed, NBSP, BOM and the
Unicode space separators. -/
def isJsWs (c : Char) : Bool :=
  c = ' ' || c = '\t' || c = '\n' || c = '\r' || c = '\x0b' || c = '\x0c' ||
  c = '\u00a0' || c = '\u1680' || (0x2000 ≤ c.toNat && c.toNat ≤ 0x200a) ||
  c = '\u2028' || c = '\u2029' || c = '\u202f' || c = '\u205f' ||
  c = '\u3000' || c = '\ufeff'

/-- `String.prototype.indexOf(pat, 0)` on a character list: the index of the
first occurrence of `pat` as a contiguous sublist, `none` when there is no
occurrence (JavaScript's `-1`). -/
def findSubIdx (pat : List Char) : List Char → Option Nat
  | [] => if pat.isPrefixOf ([] : List Char) then some 0 else none
  | c :: rest =>
    if pat.isPrefixOf (c :: rest) then some 0
    else (findSubIdx pat rest).map (· + 1)

/-- `String.prototype.includes(pat)`. -/
def containsSub (pat : List Char) (l : List Char) : Bool :=
  (findSubIdx pat l).isSome

/-- Remove trailing JavaScript whitespace. -/
def dropTrailingWs (l : List Char) : List Char :=
  (l.reverse.dropWhile isJsWs).reverse

/-- `String.prototype.trim()`: remove leading and trailing `\s` characters. -/
def trimChars (l : List Char) : List Char :=
  dropTrailingWs (l.dropWhile isJsWs)

/-- `String.prototype.split('\n')`. Splitting the empty string gives `[[]]`,
as in JavaScript (`"".split('\n')` is `[""]`). -/
def splitNl : List Char → List (List Char)
  | [] => [[]]
  | c :: rest =>
    if c = '\n' then [] :: splitNl rest
    else
      match splitNl rest with
      | [] => [[c]]
      | h :: t => (c :: h) :: t

/-- One step of `markdown.replace(/\r\n/g, '\n')`, fuel-indexed. -/
def normGo : Nat → List Char → List Char
  | 0, l => l
  | _ + 1, [] => []
  | fuel + 1, c :: rest =>
    if c = '\r' ∧ rest.take 1 = ['\n'] then '\n' :: normGo fuel (rest.drop 1)
    else c :: normGo fuel rest

/-- `markdown.replace(/\r\n/g, '\n')`: normalize line endings. -/
def normNewlines (l : List Char) : List Char := normGo l.length l

/-- Index of the last occurrence of a character in a list. -/
def lastIdxOf (c : Char) : List Char → Option Nat
  | [] => none
  | x :: rest =>
    match lastIdxOf c rest with
    | some j => some (j + 1)
    | none => if x = c then some 0 else none

/-- One step of `markdown.replace(/\n\s*\n/g, '\n')`, fuel-indexed.  The
JavaScript regex engine scans left to right; at a `'\n'` it matches when the
maximal run of whitespace that follows contains another `'\n'` (greedy `\s*`
backtracks to the last such `'\n'`), replaces the whole match by `'\n'` and
resumes scanning after the match. -/
def collapseGo : Nat → List Char → List Char
  | 0, l => l
  | _ + 1, [] => []
  | fuel + 1, c :: rest =>
    if c = '\n' then
      match lastIdxOf '\n' (rest.takeWhile isJsWs) with
      | some j => '\n' :: collapseGo fuel (rest.drop (j + 1))
      | none => '\n' :: collapseGo fuel rest
    else c :: collapseGo fuel rest

/-- `markdown.replace(/\n\s*\n/g, '\n')`: remove blank lines. -/
def collapseBlank (l : List Char) : List Char := collapseGo l.length l

/-- The `annotations` record carried by a rich-text run: style flags and the
color (the source's `RichText['annotations']` field; the field is called
`annotations` in the source, shortened here). -/
structure TextAnn where
  bold : Bool
  italic : Bool
  strikethrough : Bool
  underline : Bool
  code : Bool
  color : String
deriving DecidableEq, Repr

/-- A rich-text run (`RichText` in the source).  `text` models the source's
`text.content`; `annot` models the source's `annotations` record. -/
structure RichText where
  text : String
  annot : TextAnn
deriving DecidableEq, Repr

/-- `createRichText(content, annotations)`: the default annotation record of
`createRichText` with no overrides — all flags false, color `"default"`. -/
def defaultAnn : TextAnn :=
  ⟨false, false, false, false, false, "default"⟩

/-- `createRichText` with the override `{...currentAnnotations, bold: true}`
(in `parseInlineStyles` the local `currentAnnotations` record is initialized
with every flag false and is never reassigned, and it carries no color field,
so the spread keeps color `"default"`). -/
def boldAnn : TextAnn := ⟨true, false, false, false, false, "default"⟩

/-- The override `{...currentAnnotations, italic: true}`. -/
def italicAnn : TextAnn := ⟨false, true, false, false, false, "default"⟩

/-- The override `{...currentAnnotations, strikethrough: true}`. -/
def strikeAnn : TextAnn := ⟨false, false, true, false, false, "default"⟩

/-- The override `{...currentAnnotations, underline: true}`. -/
def underlineAnn : TextAnn := ⟨false, false, false, true, false, "default"⟩

/-- The override `{...currentAnnotations, code: true}`. -/
def codeAnn : TextAnn := ⟨false, false, false, false, true, "default"⟩

/-- `createRichText(content, annotations)`. -/
def createRichText (content : String) (ann : TextAnn) : RichText :=
  ⟨content, ann⟩

/-- `if (currentText) { segments.push(createRichText(currentText, {...currentAnnotations})) }`:
flush the pending plain-text buffer (a push happens only when the buffer is
non-empty). -/
def flushPend (pending : List Char) : List RichText :=
  if pending = [] then [] else [createRichText (String.mk pending) defaultAnn]

/-- The scanning loop of `parseInlineStyles`, fuel-indexed.  `pending` is the
`currentText` buffer, the second list is the input from the cursor on.  Each
`else if` of the source becomes a nested `if`; a style branch fires exactly
when the marker sits at the cursor and `indexOf` finds a matching closer
later (`!== -1`). -/
def scanFuel : Nat → List Char → List Char → List RichText
  | 0, pending, _ => flushPend pending
  | _ + 1, pending, [] => flushPend pending
  | fuel + 1, pending, c :: rest =>
    if c = '*' ∧ rest.take 1 = ['*'] ∧ (findSubIdx ['*', '*'] (rest.drop 1)).isSome = true then
      -- text.substr(i, 2) === '**' && text.indexOf('**', i + 2) !== -1
      let j := (findSubIdx ['*', '*'] (rest.drop 1)).getD 0
      flushPend pending ++
        (createRichText (String.mk ((rest.drop 1).take j)) boldAnn ::
          scanFuel fuel [] ((rest.drop 1).drop (j + 2)))
    else if c = '_' ∧ (findSubIdx ['_'] rest).isSome = true then
      -- text[i] === '_' && text.indexOf('_', i + 1) !== -1
      let j := (findSubIdx ['_'] rest).getD 0
      flushPend pending ++
        (createRichText (String.mk (rest.take j)) italicAnn ::
          scanFuel fuel [] (rest.drop (j + 1)))
    else if c = '_' ∧ rest.take 1 = ['_'] ∧ (findSubIdx ['_', '_'] (rest.drop 1)).isSome = true then
      -- text.substr(i, 2) === '__' && text.indexOf('__', i + 2) !== -1
      let j := (findSubIdx ['_', '_'] (rest.drop 1)).getD 0
      flushPend pending ++
        (createRichText (String.mk ((rest.drop 1).take j)) underlineAnn ::
          scanFuel fuel [] ((rest.drop 1).drop (j + 2)))
    else if c = '~' ∧ rest.take 1 = ['~'] ∧ (findSubIdx ['~', '~'] (rest.drop 1)).isSome = true then
      -- text.substr(i, 2) === '~~' && text.indexOf('~~', i + 2) !== -1
      let j := (findSubIdx ['~', '~'] (rest.drop 1)).getD 0
      flushPend pending ++
        (createRichText (String.mk ((rest.drop 1).take j)) strikeAnn ::
          scanFuel fuel [] ((rest.drop 1).drop (j + 2)))
    else if c = '`' ∧ (findSubIdx ['`'] rest).isSome = true then
      -- text[i] === '`' && text.indexOf('`', i + 1) !== -1
      let j := (findSubIdx ['`'] rest).getD 0
      flushPend pending ++
        (createRichText (String.mk (rest.take j)) codeAnn ::
          scanFuel fuel [] (rest.drop (j + 1)))
    else
      scanFuel fuel (pending ++ [c]) rest

/-- `parseInlineStyles(text)`: the inline tokenizer. -/
def parseInlineStyles (text : String) : List RichText :=
  scanFuel text.data.length [] text.data

-- sanity checks from the spec's testable properties
example : parseInlineStyles "plain" = [createRichText "plain" defaultAnn] := by decide
example : parseInlineStyles "**bold**" = [createRichText "bold" boldAnn] := by decide
example : parseInlineStyles "" = [] := by decide
example : parseInlineStyles "a_b_c" =
    [createRichText "a" defaultAnn, createRichText "b" italicAnn,
     createRichText "c" defaultAnn] := by decide
example : parseInlineStyles "__x__" =
    [createRichText "" italicAnn, createRichText "x" defaultAnn,
     createRichText "" italicAnn] := by decide

/-- The kind-specific payload of a Notion block (`createBlock`'s dynamic
`[type]: content` field, turned into a closed union of the payload shapes
actually built by the converter). -/
inductive BlockPayload where
  /-- `{ rich_text: [...] }` — headings, paragraphs, list items, quotes. -/
  | richTextP (rich_text : List RichText)
  /-- `{ type: "external", external: { url } }` — images and videos. -/
  | externalUrl (url : String)
  /-- `{ url, caption }` — bookmarks. -/
  | bookmarkP (url : String) (caption : List RichText)
  /-- `{ rich_text: [...], language }` — code blocks. -/
  | codeP (rich_text : List RichText) (language : String)
  /-- `{}` — dividers. -/
  | emptyP
deriving DecidableEq, Repr

/-- `NotionBlock`: `{ object: "block", type, [type]: content }`. -/
structure NotionBlock where
  type : String
  payload : BlockPayload
deriving DecidableEq, Repr

/-- `createBlock(type, content)`. -/
def createBlock (type : String) (payload : BlockPayload) : NotionBlock :=
  ⟨type, payload⟩

/-- `createHeading1(text)`. -/
def createHeading1 (text : String) : NotionBlock :=
  createBlock "heading_1" (.richTextP (parseInlineStyles text))

/-- `createHeading2(text)`. -/
def createHeading2 (text : String) : NotionBlock :=
  createBlock "heading_2" (.richTextP (parseInlineStyles text))

/-- `createHeading3(text)`. -/
def createHeading3 (text : String) : NotionBlock :=
  createBlock "heading_3" (.richTextP (parseInlineStyles text))

/-- `createParagraph(text)`. -/
def createParagraph (text : String) : NotionBlock :=
  createBlock "paragraph" (.richTextP (parseInlineStyles text))

/-- `createBulletList(items)`: one `bulleted_list_item` block per item, each
item independently tokenized. -/
def createBulletList (items : List String) : List NotionBlock :=
  items.map fun item => createBlock "bulleted_list_item" (.richTextP (parseInlineStyles item))

/-- `createNumberedList(items)`. -/
def createNumberedList (items : List String) : List NotionBlock :=
  items.map fun item => createBlock "numbered_list_item" (.richTextP (parseInlineStyles item))

/-- `createImage(url)`. -/
def createImage (url : String) : NotionBlock :=
  createBlock "image" (.externalUrl url)

/-- `createVideo(url)`. -/
def createVideo (url : String) : NotionBlock :=
  createBlock "video" (.externalUrl url)

/-- `createBookmark(url, caption)`: the caption is tokenized only when the
string is truthy, i.e. non-empty (`caption ? this.parseInlineStyles(caption) : []`). -/
def createBookmark (url : String) (caption : String) : NotionBlock :=
  createBlock "bookmark" (.bookmarkP url (if caption = "" then [] else parseInlineStyles caption))

/-- `createCodeBlock(code, language)` with the default language `"javascript"`. -/
def createCodeBlock (code : String) (language : String) : NotionBlock :=
  createBlock "code" (.codeP [createRichText code defaultAnn] language)

/-- `createQuote(text)`. -/
def createQuote (text : String) : NotionBlock :=
  createBlock "quote" (.richTextP (parseInlineStyles text))

/-- The two list kinds tracked by `parseMarkdown`'s `listType` variable. -/
inductive ListKind where
  | bulletList
  | numberList
deriving DecidableEq, Repr

/-- The mutable loop state of `parseMarkdown`: the `blocks` array built so
far, plus the list accumulator (`currentList`, `isInList`, `listType`). -/
structure ScanState where
  blocks : List NotionBlock
  currentList : List String
  isInList : Bool
  listType : Option ListKind
deriving DecidableEq, Repr

/-- `this.blockConverters[listType!].call(this, currentList)`: convert the
accumulated items with the converter of the open list kind.  (`listType` is
always set when this is called; the `none` arm is dead code mirroring the
non-null assertion.) -/
def flushListBlocks (listType : Option ListKind) (items : List String) : List NotionBlock :=
  match listType with
  | some .bulletList => createBulletList items
  | some .numberList => createNumberedList items
  | none => []

/-- The flush statement every non-list branch runs first:
`if (isInList) { blocks.push(...); currentList = []; isInList = false }`. -/
def flushState (st : ScanState) : ScanState :=
  if st.isInList then
    ⟨st.blocks ++ flushListBlocks st.listType st.currentList, [], false, st.listType⟩
  else st

/-- Append blocks to the output array, leaving the accumulator untouched. -/
def pushBlocks (st : ScanState) (bs : List NotionBlock) : ScanState :=
  ⟨st.blocks ++ bs, st.currentList, st.isInList, st.listType⟩

/-- `/^\d+\.\s/`: one or more digits, a dot, then one whitespace character;
returns the text after the matched marker (what
`line.replace(/^\d+\.\s/, '')` keeps).  Greedy `\d+` with backtracking is
equivalent to taking the maximal digit run, since a shorter digit run is
followed by another digit, never by `'.'`. -/
def stripNumMarker (l : List Char) : Option (List Char) :=
  let ds := l.takeWhile Char.isDigit
  if ds = [] then none
  else
    match l.drop ds.length with
    | '.' :: w :: r => if isJsWs w then some r else none
    | _ => none

/-- The image-line guard:
`line.startsWith('![') && line.includes('](') && line.endsWith(')')`. -/
def imageGuard (l : List Char) : Prop :=
  ['!', '['].isPrefixOf l = true ∧ containsSub [']', '('] l = true ∧ l.getLast? = some ')'

instance (l : List Char) : Decidable (imageGuard l) := by
  unfold imageGuard; infer_instance

/-- The bookmark-line guard:
`line.startsWith('[') && line.includes('](') && line.endsWith(')')`. -/
def bookmarkGuard (l : List Char) : Prop :=
  ['['].isPrefixOf l = true ∧ containsSub [']', '('] l = true ∧ l.getLast? = some ')'

instance (l : List Char) : Decidable (bookmarkGuard l) := by
  unfold bookmarkGuard; infer_instance

/-- The ECMAScript `LineTerminator` set: in a regular expression without
the `s` flag, `.` matches any character **except** these four. -/
def isLineTerm (c : Char) : Bool :=
  c = '\n' || c = '\r' || c = '\u2028' || c = '\u2029'

/-- A lazy `(.*?)` followed by the closing character `close`: scan forward
and stop at the first occurrence of `close` (laziness prefers the shortest
capture), returning the characters consumed before it; fail if a line
terminator — which `.` cannot match — or the end of the string comes
first. -/
def capTo (close : Char) : List Char → Option (List Char)
  | [] => none
  | c :: rest =>
    if c = close then some []
    else if isLineTerm c then none
    else (capTo close rest).map (fun cap => c :: cap)

/-- `line.match(/\((.*?)\)/)` (capture only): the engine tries each start
position left to right, so each `'('` in turn; at a `'('` the lazy capture
runs to the first `')'` after it, failing if a line terminator intervenes,
in which case the engine advances and tries the next `'('`. -/
def firstParenCapture : List Char → Option (List Char)
  | [] => none
  | c :: rest =>
    if c = '(' then
      match capTo ')' rest with
      | some cap => some cap
      | none => firstParenCapture rest
    else firstParenCapture rest

/-- The part of `/\[(.*?)\]\((.*?)\)/` after the opening `\[`: the lazy
first capture runs to a `"]("`, then the lazy second capture runs to a
`')'`.  When the second part fails at a candidate `"]("`, the first
capture backtracks by consuming the `']'` (one character — hence the fuel,
instantiated with the list length) and continues to the next candidate; a
line terminator, which neither `.*?` can cross, fails the whole attempt at
this start position. -/
def bmTryFuel : Nat → List Char → Option (List Char × List Char)
  | 0, _ => none
  | fuel + 1, l =>
    match l with
    | [] => none
    | c :: rest =>
      if c = ']' ∧ rest.take 1 = ['('] then
        match capTo ')' (rest.drop 1) with
        | some cap2 => some ([], cap2)
        | none => (bmTryFuel fuel rest).map (fun p => (c :: p.1, p.2))
      else if isLineTerm c then none
      else (bmTryFuel fuel rest).map (fun p => (c :: p.1, p.2))

/-- `line.match(/\[(.*?)\]\((.*?)\))/` (captures only): the engine tries
each start position left to right; a match can only start at a `'['`. -/
def bookmarkMatch : List Char → Option (List Char × List Char)
  | [] => none
  | c :: rest =>
    if c = '[' then
      match bmTryFuel rest.length rest with
      | some caps => some caps
      | none => bookmarkMatch rest
    else bookmarkMatch rest

/-- The classification of one non-empty trimmed line: the ordered `if`/`else
if` chain in `parseMarkdown`'s loop body. -/
def processTrimmed (st : ScanState) (line : List Char) : ScanState :=
  if ['#', ' '].isPrefixOf line then
    pushBlocks (flushState st) [createHeading1 (String.mk (line.drop 2))]
  else if ['#', '#', ' '].isPrefixOf line then
    pushBlocks (flushState st) [createHeading2 (String.mk (line.drop 3))]
  else if ['#', '#', '#', ' '].isPrefixOf line then
    pushBlocks (flushState st) [createHeading3 (String.mk (line.drop 4))]
  else if ['*', ' '].isPrefixOf line || ['-', ' '].isPrefixOf line then
    -- bullet list: maybe flush a different open list, then append the item
    let st' :=
      if ¬ st.isInList = true ∨ ¬ st.listType = some .bulletList then
        let f := flushState st
        ⟨f.blocks, f.currentList, true, some .bulletList⟩
      else st
    ⟨st'.blocks, st'.currentList ++ [String.mk (line.drop 2)], st'.isInList, st'.listType⟩
  else if (stripNumMarker line).isSome then
    let st' :=
      if ¬ st.isInList = true ∨ ¬ st.listType = some .numberList then
        let f := flushState st
        ⟨f.blocks, f.currentList, true, some .numberList⟩
      else st
    ⟨st'.blocks, st'.currentList ++ [String.mk ((stripNumMarker line).getD [])],
      st'.isInList, st'.listType⟩
  else if ['`'].isPrefixOf line then
    -- line.slice(1, -1): drop the first and last characters
    pushBlocks (flushState st) [createCodeBlock (String.mk (line.drop 1).dropLast) "javascript"]
  else if ['>', ' '].isPrefixOf line then
    pushBlocks (flushState st) [createQuote (String.mk (line.drop 2))]
  else if imageGuard line then
    let st' := flushState st
    match firstParenCapture line with
    | none => st'   -- `if (!match) continue;`
    | some url => pushBlocks st' [createImage (String.mk url)]
  else if bookmarkGuard line then
    let st' := flushState st
    match bookmarkMatch line with
    | none => st'   -- `if (!match) continue;`
    | some (text, url) => pushBlocks st' [createBookmark (String.mk url) (String.mk text)]
  else
    pushBlocks (flushState st) [createParagraph (String.mk line)]

/-- One loop iteration of `parseMarkdown`: trim the line, skip it when it
becomes empty, otherwise classify it. -/
def processLine (st : ScanState) (raw : List Char) : ScanState :=
  let line := trimChars raw
  if line = [] then st else processTrimmed st line

/-- The initial loop state: `blocks = []`, `currentList = []`,
`isInList = false`, `listType = null`. -/
def initState : ScanState := ⟨[], [], false, none⟩

/-- The trailing
`if (isInList && currentList.length > 0) blocks.push(...)` of `parseMarkdown`. -/
def finishScan (st : ScanState) : List NotionBlock :=
  if st.isInList = true ∧ ¬ st.currentList = [] then
    st.blocks ++ flushListBlocks st.listType st.currentList
  else st.blocks

/-- `parseMarkdown(markdown)`: normalize line endings, remove blank lines,
trim the document, split on `'\n'`, then classify line by line. -/
def parseMarkdown (markdown : String) : List NotionBlock :=
  let clean := trimChars (collapseBlank (normNewlines markdown.data))
  finishScan ((splitNl clean).foldl processLine initState)

-- sanity checks from the spec's testable properties
example : parseMarkdown "# Title\n\nSome text" =
    [createHeading1 "Title", createParagraph "Some text"] := by decide
example : parseMarkdown "![alt](http://x/y.png)" = [createImage "http://x/y.png"] := by decide
example : parseMarkdown "[Click](http://x)" = [createBookmark "http://x" "Click"] := by decide
example : parseMarkdown "- a\n- b\n- c\nend" =
    [createBlock "bulleted_list_item" (.richTextP (parseInlineStyles "a")),
     createBlock "bulleted_list_item" (.richTextP (parseInlineStyles "b")),
     createBlock "bulleted_list_item" (.richTextP (parseInlineStyles "c")),
     createParagraph "end"] := by decide
example : parseMarkdown "1. one\n2. two" =
    [createBlock "numbered_list_item" (.richTextP (parseInlineStyles "one")),
     createBlock "numbered_list_item" (.richTextP (parseInlineStyles "two"))] := by decide
example : parseMarkdown "> q\n`cd`\n---" =
    [createQuote "q", createCodeBlock "cd" "javascript", createParagraph "---"] := by decide

-- `.` does not match a bare carriage return: both matches fail and the
-- guarded lines are silently dropped (no block emitted)
example : firstParenCapture "![x](a\rb)".data = none := by decide
example : bookmarkMatch "[a\rb](u)".data = none := by decide
example : parseMarkdown "![x](a\rb)" = [] := by decide
example : parseMarkdown "[a\rb](u)" = [] := by decide
-- the engine advances past a failed start position and backtracks lazily
example : firstParenCapture "![(a\rb](u)".data = some "u".data := by decide
example : bookmarkMatch "[a](b](c)".data = some ("a".data, "b](c".data) := by decide

/-- `MainArgs`: the OpenWhisk action arguments.  `md` is `none` when the
field is absent (TypeScript `undefined`); `__ow_method` / `__ow_headers`
are the optional host-supplied metadata. -/
structure MainArgs where
  md : Option String
  __ow_method : Option String
  __ow_headers : Option (List (String × String))
deriving DecidableEq, Repr

/-- The response body: every return of `main` carries either an `error`
string or a `children` block array. -/
inductive ResponseBody where
  | err (msg : String)
  | children (blocks : List NotionBlock)
deriving DecidableEq, Repr

/-- `MainResponse` (every return statement of `main` sets all three fields). -/
structure MainResponse where
  body : ResponseBody
  statusCode : Nat
  headers : List (String × String)
deriving DecidableEq, Repr

/-- `String.prototype.toLowerCase()` (ASCII case mapping). -/
def lowerStr (s : String) : String := String.mk (s.data.map Char.toLower)

/-- `args.__ow_headers?.['content-type'] || ''`. -/
def contentTypeOf (args : MainArgs) : String :=
  match args.__ow_headers with
  | none => ""
  | some hs => (hs.lookup "content-type").getD ""

/-- The shared suffix of every error message. -/
def exampleHint : String :=
  " With a body containing markdown in a \"md\" field. example: \x7b\"md\": \"## Hello World\"\x7d"

/-- The 405 response. -/
def methodNotAllowedResp : MainResponse :=
  ⟨.err ("Method not allowed. Only POST requests are supported." ++ exampleHint), 405,
    [("Content-Type", "application/json"), ("Allow", "POST")]⟩

/-- The 415 response. -/
def unsupportedMediaResp : MainResponse :=
  ⟨.err ("Unsupported Media Type. Please send request with application/json content type."
      ++ exampleHint), 415,
    [("Content-Type", "application/json")]⟩

/-- The 400 response. -/
def badRequestResp : MainResponse :=
  ⟨.err ("Bad Request: No markdown content provided in the request body." ++ exampleHint), 400,
    [("Content-Type", "application/json")]⟩

/-- The 200 response. -/
def okResp (blocks : List NotionBlock) : MainResponse :=
  ⟨.children blocks, 200, [("Content-Type", "application/json")]⟩

/-- The 500 response built by the `catch` block. -/
def errorResp (msg : String) : MainResponse :=
  ⟨.err ("Internal Server Error: " ++ msg), 500, [("Content-Type", "application/json")]⟩

/-- `args.__ow_method && args.__ow_method.toLowerCase() !== 'post'`.
JavaScript truthiness: the gate is skipped when the method is absent **or
the empty string**. -/
def methodRejected (args : MainArgs) : Bool :=
  match args.__ow_method with
  | some m => m != "" && lowerStr m != "post"
  | none => false

/-- `contentType && !contentType.includes('application/json')`: the gate is
skipped when the header is absent or its value is the empty string. -/
def contentTypeRejected (args : MainArgs) : Bool :=
  contentTypeOf args != "" && !containsSub "application/json".data (contentTypeOf args).data

/-- `main(args)`, with the `try { parseMarkdown } catch` block abstracted
over the conversion: a thrown exception is modelled by `Except.error` with
the exception's message, which the handler turns into the 500 response.
`!args.md` is true when `md` is absent or empty. -/
def mainWith (convert : String → Except String (List NotionBlock)) (args : MainArgs) :
    MainResponse :=
  if methodRejected args then
    methodNotAllowedResp
  else if contentTypeRejected args then
    unsupportedMediaResp
  else
    match args.md with
    | none => badRequestResp
    | some md =>
      if md = "" then badRequestResp
      else
        match convert md with
        | .ok blocks => okResp blocks
        | .error e => errorResp e

/-- `main(args)`: the conversion itself is the total `parseMarkdown`, so the
`catch` path is never taken for it. -/
def main (args : MainArgs) : MainResponse :=
  mainWith (fun md => .ok (parseMarkdown md)) args

example : main ⟨some "## Hi", none, none⟩ = okResp [createHeading2 "Hi"] := by decide
example : main ⟨some "x", some "GET", none⟩ = methodNotAllowedResp := by decide
example : main ⟨some "x", some "Post", some [("content-type", "application/json; charset=utf-8")]⟩
    = okResp [createParagraph "x"] := by decide
example : main ⟨some "x", none, some [("content-type", "text/plain")]⟩
    = unsupportedMediaResp := by decide
example : main ⟨none, none, none⟩ = badRequestResp := by decide
example : main ⟨some "", none, none⟩ = badRequestResp := by decide

/-! ### The spec-side description of the tokenizer's plain text

`stripFuel` follows the spec's words for the round-trip property: scan the
line exactly as the tokenizer does, keep the text between a matched
delimiter pair, drop the two matching markers themselves, and keep a marker
character that has no matching closer as plain text.  Its branch structure
and branch conditions are those of `scanFuel`; it merely forgets the runs
and keeps the characters. -/

/-- One scan step of the spec's "line with matched delimiters removed". -/
def stripFuel : Nat → List Char → List Char
  | 0, _ => []
  | _ + 1, [] => []
  | fuel + 1, c :: rest =>
    if c = '*' ∧ rest.take 1 = ['*'] ∧ (findSubIdx ['*', '*'] (rest.drop 1)).isSome = true then
      let j := (findSubIdx ['*', '*'] (rest.drop 1)).getD 0
      (rest.drop 1).take j ++ stripFuel fuel ((rest.drop 1).drop (j + 2))
    else if c = '_' ∧ (findSubIdx ['_'] rest).isSome = true then
      let j := (findSubIdx ['_'] rest).getD 0
      rest.take j ++ stripFuel fuel (rest.drop (j + 1))
    else if c = '_' ∧ rest.take 1 = ['_'] ∧ (findSubIdx ['_', '_'] (rest.drop 1)).isSome = true then
      let j := (findSubIdx ['_', '_'] (rest.drop 1)).getD 0
      (rest.drop 1).take j ++ stripFuel fuel ((rest.drop 1).drop (j + 2))
    else if c = '~' ∧ rest.take 1 = ['~'] ∧ (findSubIdx ['~', '~'] (rest.drop 1)).isSome = true then
      let j := (findSubIdx ['~', '~'] (rest.drop 1)).getD 0
      (rest.drop 1).take j ++ stripFuel fuel ((rest.drop 1).drop (j + 2))
    else if c = '`' ∧ (findSubIdx ['`'] rest).isSome = true then
      let j := (findSubIdx ['`'] rest).getD 0
      rest.take j ++ stripFuel fuel (rest.drop (j + 1))
    else c :: stripFuel fuel rest

/-- Modelled from the spec: "the original line text with recognized
delimiter characters stripped" — matched delimiter pairs are removed, their
inner text and all unmatched marker characters stay. -/
def removeMatchedDelimiters (s : String) : String :=
  String.mk (stripFuel s.data.length s.data)

/-- Concatenation of the text fields of a run sequence, as characters. -/
def runsText : List RichText → List Char
  | [] => []
  | r :: rs => r.text.data ++ runsText rs

lemma stringMk_data (l : List Char) : (String.mk l).data = l := rfl

lemma runsText_append (a b : List RichText) :
    runsText (a ++ b) = runsText a ++ runsText b := by
  induction a with
  | nil => rfl
  | cons r rs ih => simp [runsText, ih]

lemma runsText_flushPend (p : List Char) : runsText (flushPend p) = p := by
  by_cases h : p = []
  · subst h; rfl
  · simp [flushPend, h, runsText, createRichText, stringMk_data]

/-- The scanning loop and the spec's strip function walk the line in step:
the concatenated run text is the pending buffer followed by the stripped
remainder. -/
lemma runsText_scanFuel (fuel : Nat) :
    ∀ pending rem, runsText (scanFuel fuel pending rem) = pending ++ stripFuel fuel rem := by
  induction fuel with
  | zero =>
    intro pending rem
    simp [scanFuel, stripFuel, runsText_flushPend]
  | succ fuel ih =>
    intro pending rem
    cases rem with
    | nil => simp [scanFuel, stripFuel, runsText_flushPend]
    | cons c rest =>
      simp only [scanFuel, stripFuel]
      split_ifs <;>
        simp [runsText, runsText_append, runsText_flushPend, createRichText,
          stringMk_data, ih, List.append_assoc]

/-- Claim C1: for every input line, concatenating the text fields of all
runs returned by `parseInlineStyles`, in order and ignoring all style
markup, equals the line with exactly the matched delimiter characters
removed; marker characters without a matching closer remain in the
concatenation as plain text (`removeMatchedDelimiters` keeps them). -/
theorem tokenizer_concat_strips_matched_delimiters (s : String) :
    String.mk (runsText (parseInlineStyles s)) = removeMatchedDelimiters s := by
  unfold parseInlineStyles removeMatchedDelimiters
  rw [runsText_scanFuel]
  rfl

lemma take_one_eq {l : List Char} {a : Char} (h : l.take 1 = [a]) : ∃ t, l = a :: t := by
  cases l with
  | nil => simp at h
  | cons x t =>
    simp [List.take] at h
    exact ⟨t, by rw [h]⟩

/-- Every run the scanning loop emits carries one of the five annotation
records actually constructed by the source — and never the underline one,
because the underline branch sits behind the italic branch: whenever the
cursor stands on `"__"` with a later `'_'`, the italic condition (checked
first) already holds. -/
lemma scanFuel_ann_cases (fuel : Nat) :
    ∀ pending rem r, r ∈ scanFuel fuel pending rem →
      r.annot = defaultAnn ∨ r.annot = boldAnn ∨ r.annot = italicAnn ∨
        r.annot = strikeAnn ∨ r.annot = codeAnn := by
  have hflush : ∀ p (r : RichText), r ∈ flushPend p → r.annot = defaultAnn := by
    intro p r hr
    by_cases h : p = [] <;> simp [flushPend, h, createRichText] at hr
    rw [hr]
  induction fuel with
  | zero => intro pending rem r hr; exact Or.inl (hflush _ _ hr)
  | succ fuel ih =>
    intro pending rem r hr
    cases rem with
    | nil => exact Or.inl (hflush _ _ hr)
    | cons c rest =>
      simp only [scanFuel] at hr
      split_ifs at hr with h1 h2 h3 h4 h5
      · rcases List.mem_append.mp hr with h | h
        · exact Or.inl (hflush _ _ h)
        · rcases List.mem_cons.mp h with h | h
          · rw [h]; exact Or.inr (Or.inl rfl)
          · exact ih _ _ _ h
      · rcases List.mem_append.mp hr with h | h
        · exact Or.inl (hflush _ _ h)
        · rcases List.mem_cons.mp h with h | h
          · rw [h]; exact Or.inr (Or.inr (Or.inl rfl))
          · exact ih _ _ _ h
      · -- the underline branch is unreachable: its condition implies the
        -- italic condition, which `split_ifs` has already refuted
        exfalso
        obtain ⟨t, ht⟩ := take_one_eq h3.2.1
        exact h2 ⟨h3.1, by simp [ht, findSubIdx, List.isPrefixOf]⟩
      · rcases List.mem_append.mp hr with h | h
        · exact Or.inl (hflush _ _ h)
        · rcases List.mem_cons.mp h with h | h
          · rw [h]; exact Or.inr (Or.inr (Or.inr (Or.inl rfl)))
          · exact ih _ _ _ h
      · rcases List.mem_append.mp hr with h | h
        · exact Or.inl (hflush _ _ h)
        · rcases List.mem_cons.mp h with h | h
          · rw [h]; exact Or.inr (Or.inr (Or.inr (Or.inr rfl)))
          · exact ih _ _ _ h
      · exact ih _ _ _ hr

/-- Claim C2: every run emitted by `parseInlineStyles` has at most one of
the five style flags set, and its color is always `"default"`. -/
theorem run_styles_exclusive (s : String) (r : RichText) (h : r ∈ parseInlineStyles s) :
    r.annot.bold.toNat + r.annot.italic.toNat + r.annot.strikethrough.toNat +
        r.annot.underline.toNat + r.annot.code.toNat ≤ 1 ∧
      r.annot.color = "default" := by
  rcases scanFuel_ann_cases _ _ _ r h with h' | h' | h' | h' | h' <;> rw [h'] <;>
    exact ⟨by decide, rfl⟩

/-- Witness for C2 at a concrete bold run. -/
theorem run_styles_exclusive_witness :
    (createRichText "b" boldAnn).annot.bold.toNat +
          (createRichText "b" boldAnn).annot.italic.toNat +
          (createRichText "b" boldAnn).annot.strikethrough.toNat +
          (createRichText "b" boldAnn).annot.underline.toNat +
          (createRichText "b" boldAnn).annot.code.toNat ≤ 1 ∧
      (createRichText "b" boldAnn).annot.color = "default" :=
  run_styles_exclusive "**b**" (createRichText "b" boldAnn) (by decide)

/-- Claim C9: no run emitted by `parseInlineStyles` ever has `underline`
set — the single-underscore italic branch pre-empts the `"__"` branch. -/
theorem run_underline_never_set (s : String) (r : RichText) (h : r ∈ parseInlineStyles s) :
    r.annot.underline = false := by
  rcases scanFuel_ann_cases _ _ _ r h with h' | h' | h' | h' | h' <;> rw [h'] <;> rfl

/-- Witness for C9 on a line made of nothing but double underscores. -/
theorem run_underline_never_set_witness :
    (createRichText "" italicAnn).annot.underline = false :=
  run_underline_never_set "__x__" (createRichText "" italicAnn) (by decide)

/-- The loop never produces an empty run sequence unless both the buffer
and the remaining input are empty (given enough fuel). -/
lemma scanFuel_ne_nil (fuel : Nat) :
    ∀ pending rem, rem.length ≤ fuel → (¬ pending = [] ∨ ¬ rem = []) →
      ¬ scanFuel fuel pending rem = [] := by
  induction fuel with
  | zero =>
    intro pending rem hlen hne
    have : rem = [] := List.length_eq_zero.mp (Nat.le_zero.mp hlen)
    subst this
    rcases hne with h | h
    · simp [scanFuel, flushPend, h]
    · exact absurd rfl h
  | succ fuel ih =>
    intro pending rem hlen hne
    cases rem with
    | nil =>
      rcases hne with h | h
      · simp [scanFuel, flushPend, h]
      · exact absurd rfl h
    | cons c rest =>
      simp only [scanFuel]
      split_ifs <;> try simp
      exact ih (pending ++ [c]) rest (by simpa using Nat.le_of_succ_le_succ hlen)
        (Or.inl (by simp))

/-- Claim C8 counterexample: on the empty input the tokenizer does **not**
produce a sequence containing exactly one empty-text run — it produces the
empty sequence (`segments` stays empty and the final `if (currentText)`
guard skips the push). -/
theorem tokenizer_empty_input_not_one_run :
    ¬ (parseInlineStyles "").length = 1 := by decide

/-- Claim C8 (amended): `parseInlineStyles` returns a non-empty run
sequence for every non-empty input, and returns the **empty** sequence for
the empty input. -/
theorem tokenizer_output_empty_iff (s : String) :
    parseInlineStyles s = [] ↔ s = "" := by
  constructor
  · intro h
    by_contra hs
    refine scanFuel_ne_nil s.data.length [] s.data le_rfl (Or.inr ?_) h
    intro hd
    apply hs
    cases s with
    | mk data => simp at hd; rw [hd]
  · intro h
    rw [h]
    rfl

/-! ### The line view of `parseMarkdown`

`parseMarkdown` preprocesses the document (normalize line endings, remove
blank lines, trim), splits on `'\n'`, and then trims each line and skips the
empty ones.  The lemmas below show that the whole pipeline is equivalent to
folding the classifier over `netAux [] doc` — the non-empty trimmed lines of
the document with normalized line endings — because blank-line removal and
document trimming change only lines that the loop would skip anyway. -/

/-- The non-empty trimmed lines of a character list, computed in one pass:
`cur` is the part of the current line read so far. -/
def netAux (cur : List Char) : List Char → List (List Char)
  | [] => if trimChars cur = [] then [] else [trimChars cur]
  | c :: rest =>
    if c = '\n' then
      if trimChars cur = [] then netAux [] rest else trimChars cur :: netAux [] rest
    else netAux (cur ++ [c]) rest

/-- Prepend pending characters to the first piece of a split. -/
def consHead (cur : List Char) : List (List Char) → List (List Char)
  | [] => [cur]
  | h :: t => (cur ++ h) :: t

lemma splitNl_ne_nil (l : List Char) : ¬ splitNl l = [] := by
  cases l with
  | nil => simp [splitNl]
  | cons c rest =>
    simp only [splitNl]
    split_ifs
    · simp
    · rcases h : splitNl rest with _ | ⟨hd, tl⟩ <;> simp [h]

lemma consHead_nil_of_ne {xs : List (List Char)} (h : ¬ xs = []) : consHead [] xs = xs := by
  cases xs with
  | nil => exact absurd rfl h
  | cons hd tl => simp [consHead]

/-- Folding the loop body over the split lines equals folding the
classifier over the non-empty trimmed lines. -/
lemma foldl_processLine_splitNl (l : List Char) :
    ∀ cur st, (consHead cur (splitNl l)).foldl processLine st =
      (netAux cur l).foldl processTrimmed st := by
  induction l with
  | nil =>
    intro cur st
    by_cases h : trimChars cur = [] <;>
      simp [splitNl, consHead, netAux, processLine, h]
  | cons c rest ih =>
    intro cur st
    by_cases hc : c = '\n'
    · subst hc
      have lhs : consHead cur (splitNl ('\n' :: rest)) = cur :: splitNl rest := by
        simp [splitNl, consHead]
      rw [lhs, List.foldl_cons,
        show splitNl rest = consHead [] (splitNl rest) from
          (consHead_nil_of_ne (splitNl_ne_nil rest)).symm,
        ih]
      by_cases h : trimChars cur = []
      · simp [netAux, h, processLine]
      · simp [netAux, h, processLine]
    · have hsh : consHead cur (splitNl (c :: rest)) = consHead (cur ++ [c]) (splitNl rest) := by
        simp only [splitNl, if_neg hc]
        rcases h : splitNl rest with _ | ⟨hd, tl⟩
        · exact absurd h (splitNl_ne_nil rest)
        · simp [consHead]
      rw [hsh, ih]
      simp [netAux, hc]

lemma trim_of_allWs {l : List Char} (h : ∀ x ∈ l, isJsWs x = true) : trimChars l = [] := by
  unfold trimChars
  rw [List.dropWhile_eq_nil_iff.mpr h]
  rfl

lemma dropTrailingWs_append_ws {z w : List Char} (hw : ∀ x ∈ w, isJsWs x = true) :
    dropTrailingWs (z ++ w) = dropTrailingWs z := by
  unfold dropTrailingWs
  rw [List.reverse_append,
    List.dropWhile_append_of_pos (fun a ha => hw a (List.mem_reverse.mp ha))]

lemma trim_ws_prepend {w l : List Char} (hw : ∀ x ∈ w, isJsWs x = true) :
    trimChars (w ++ l) = trimChars l := by
  unfold trimChars
  rw [List.dropWhile_append_of_pos hw]

lemma trim_ws_append {l w : List Char} (hw : ∀ x ∈ w, isJsWs x = true) :
    trimChars (l ++ w) = trimChars l := by
  unfold trimChars
  rw [List.dropWhile_append]
  by_cases h : (l.dropWhile isJsWs).isEmpty
  · rw [if_pos h, List.dropWhile_eq_nil_iff.mpr hw]
    rw [List.isEmpty_iff] at h
    rw [h]
  · rw [if_neg h]
    exact dropTrailingWs_append_ws hw

/-- A run of pure whitespace closes the current line and contributes no
further lines. -/
lemma netAux_allWs {w : List Char} (hw : ∀ x ∈ w, isJsWs x = true) :
    ∀ cur, netAux cur w = if trimChars cur = [] then [] else [trimChars cur] := by
  induction w with
  | nil => intro cur; rfl
  | cons c w' ih =>
    intro cur
    have hc : isJsWs c = true := hw c (List.mem_cons_self c w')
    have hw' : ∀ x ∈ w', isJsWs x = true := fun x hx => hw x (List.mem_cons_of_mem c hx)
    by_cases h : c = '\n'
    · subst h
      have h0 : netAux ([] : List Char) w' = [] := by
        rw [ih hw' []]
        simp [trimChars, dropTrailingWs]
      simp only [netAux, if_pos rfl, h0]
      by_cases ht : trimChars cur = [] <;> simp [ht]
    · simp only [netAux, if_neg h, ih hw']
      rw [trim_ws_append (w := [c]) (by simpa using hc)]

/-- Prepending whitespace to the pending part of the current line does not
change the line view. -/
lemma netAux_ws_front {w : List Char} (hw : ∀ x ∈ w, isJsWs x = true) :
    ∀ l cur, netAux (w ++ cur) l = netAux cur l := by
  intro l
  induction l with
  | nil =>
    intro cur
    simp [netAux, trim_ws_prepend hw]
  | cons c rest ih =>
    intro cur
    by_cases h : c = '\n'
    · subst h
      simp [netAux, trim_ws_prepend hw]
    · simp only [netAux, if_neg h, List.append_assoc]
      exact ih (cur ++ [c])

/-- A whitespace-only piece followed by a newline contributes no line. -/
lemma netAux_ws_nl {P : List Char} (hP : ∀ x ∈ P, isJsWs x = true) (S : List Char) :
    ∀ cur, (∀ x ∈ cur, isJsWs x = true) → netAux cur (P ++ '\n' :: S) = netAux [] S := by
  induction P with
  | nil =>
    intro cur hcur
    simp [netAux, trim_of_allWs hcur]
  | cons c P' ih =>
    intro cur hcur
    have hc : isJsWs c = true := hP c (List.mem_cons_self c P')
    have hP' : ∀ x ∈ P', isJsWs x = true := fun x hx => hP x (List.mem_cons_of_mem c hx)
    by_cases h : c = '\n'
    · subst h
      simp only [List.cons_append, netAux, if_pos rfl, trim_of_allWs hcur, if_pos]
      exact ih hP' [] (by simp)
    · simp only [List.cons_append, netAux, if_neg h]
      exact ih hP' (cur ++ [c]) (by
        intro x hx
        rcases List.mem_append.mp hx with hx | hx
        · exact hcur x hx
        · simp at hx; rw [hx]; exact hc)

/-- Removing leading document whitespace does not change the line view. -/
lemma netAux_dropWhileWs (l : List Char) :
    netAux [] (l.dropWhile isJsWs) = netAux [] l := by
  induction l with
  | nil => rfl
  | cons c rest ih =>
    by_cases hc : isJsWs c = true
    · rw [List.dropWhile_cons_of_pos hc]
      by_cases h : c = '\n'
      · subst h
        simp only [netAux, if_pos rfl]
        rw [ih]
        simp [trimChars, dropTrailingWs]
      · simp only [netAux, if_neg h, List.nil_append]
        rw [ih]
        exact (netAux_ws_front (w := [c]) (by simpa using hc) rest []).symm ▸ rfl
    · rw [List.dropWhile_cons_of_neg hc]

/-- Appending trailing whitespace to the document does not change the line
view. -/
lemma netAux_append_allWs {w : List Char} (hw : ∀ x ∈ w, isJsWs x = true) :
    ∀ (y : List Char) cur, netAux cur (y ++ w) = netAux cur y := by
  intro y
  induction y with
  | nil =>
    intro cur
    rw [List.nil_append, netAux_allWs hw]
    rfl
  | cons c y' ih =>
    intro cur
    by_cases h : c = '\n'
    · subst h
      simp [netAux, ih]
    · simp [netAux, h, ih]

/-- Removing trailing document whitespace does not change the line view. -/
lemma netAux_dropTrailingWs (l : List Char) :
    netAux [] (dropTrailingWs l) = netAux [] l := by
  have hsplit : l = dropTrailingWs l ++ (l.reverse.takeWhile isJsWs).reverse := by
    unfold dropTrailingWs
    rw [← List.reverse_append, List.takeWhile_append_dropWhile, List.reverse_reverse]
  have hw : ∀ x ∈ (l.reverse.takeWhile isJsWs).reverse, isJsWs x = true := by
    intro x hx
    exact List.mem_takeWhile_imp (List.mem_reverse.mp hx)
  conv_rhs => rw [hsplit]
  exact (netAux_append_allWs hw (dropTrailingWs l) []).symm

/-- Trimming the whole document does not change the line view. -/
lemma netAux_trimChars (l : List Char) :
    netAux [] (trimChars l) = netAux [] l := by
  unfold trimChars
  rw [netAux_dropTrailingWs, netAux_dropWhileWs]

lemma lastIdxOf_some {a : Char} :
    ∀ {l : List Char} {j : Nat}, lastIdxOf a l = some j → j < l.length ∧ l[j]? = some a := by
  intro l
  induction l with
  | nil => intro j h; simp [lastIdxOf] at h
  | cons x rest ih =>
    intro j h
    simp only [lastIdxOf] at h
    cases h' : lastIdxOf a rest with
    | some j' =>
      rw [h'] at h
      obtain ⟨hlt, hget⟩ := ih h'
      cases h
      exact ⟨Nat.succ_lt_succ hlt, by simpa using hget⟩
    | none =>
      rw [h'] at h
      split_ifs at h with hx
      cases h
      subst hx
      exact ⟨Nat.succ_pos _, by simp⟩

/-- Collapsing blank lines does not change the line view: the characters
the regex replacement deletes sit between two newlines and are all
whitespace, so they form whitespace-only pieces that `netAux` drops. -/
lemma netAux_collapseGo :
    ∀ fuel (l : List Char), l.length ≤ fuel →
      ∀ cur, netAux cur (collapseGo fuel l) = netAux cur l := by
  intro fuel
  induction fuel with
  | zero =>
    intro l h cur
    rw [List.length_eq_zero.mp (Nat.le_zero.mp h)]
    rfl
  | succ fuel ih =>
    intro l h cur
    cases l with
    | nil => rfl
    | cons c rest =>
      have hrest : rest.length ≤ fuel := Nat.le_of_succ_le_succ (by simpa using h)
      by_cases hc : c = '\n'
      · subst hc
        simp only [collapseGo, if_pos rfl]
        cases hj : lastIdxOf '\n' (rest.takeWhile isJsWs) with
        | none =>
          have htail : netAux ([] : List Char) (collapseGo fuel rest) = netAux [] rest :=
            ih rest hrest []
          simp [netAux, htail]
        | some j =>
          obtain ⟨hjlen, hjget⟩ := lastIdxOf_some hj
          -- decompose rest = P ++ '\n' :: S with P whitespace-only
          obtain ⟨s, hs⟩ : ∃ s, rest.takeWhile isJsWs ++ s = rest :=
            List.takeWhile_prefix isJsWs
          have hjrest : j < rest.length := by
            calc j < (rest.takeWhile isJsWs).length := hjlen
            _ ≤ rest.length := (List.takeWhile_prefix isJsWs).length_le
          have hgetrest : rest[j]? = some '\n' := by
            rw [← hs, List.getElem?_append_left hjlen]
            exact hjget
          have hlen : ((rest.takeWhile isJsWs).take j).length = j := by
            rw [List.length_take]
            exact min_eq_left (Nat.le_of_lt hjlen)
          have h1 : rest = (rest.takeWhile isJsWs).take j ++
              ((rest.takeWhile isJsWs).drop j ++ s) := by
            rw [← List.append_assoc, List.take_append_drop]
            exact hs.symm
          have htake : rest.take j = (rest.takeWhile isJsWs).take j := by
            conv_lhs => rw [h1]
            exact List.take_left' hlen
          have hP : ∀ x ∈ rest.take j, isJsWs x = true := by
            intro x hx
            rw [htake] at hx
            exact List.mem_takeWhile_imp (List.take_subset j _ hx)
          have hdecomp : rest = rest.take j ++ '\n' :: rest.drop (j + 1) := by
            conv_lhs => rw [← List.take_append_drop j rest]
            congr 1
            rw [List.drop_eq_getElem_cons hjrest]
            congr 1
            have := List.getElem?_eq_getElem hjrest
            rw [this] at hgetrest
            exact Option.some.inj hgetrest
          have htail2 : netAux ([] : List Char) rest = netAux [] (rest.drop (j + 1)) := by
            conv_lhs => rw [hdecomp]
            exact netAux_ws_nl hP _ [] (by simp)
          have htail : netAux ([] : List Char) (collapseGo fuel (rest.drop (j + 1))) =
              netAux [] (rest.drop (j + 1)) :=
            ih (rest.drop (j + 1)) (le_trans (by simp [Nat.sub_le]) hrest) []
          simp [netAux, htail, htail2]
      · simp only [collapseGo, if_neg hc]
        simp [netAux, hc, ih rest hrest]

/-- The master bridge: `parseMarkdown` is the classifier fold over the
non-empty trimmed lines of the input with normalized line endings. -/
lemma parseMarkdown_eq_netAux (md : String) :
    parseMarkdown md =
      finishScan ((netAux [] (normNewlines md.data)).foldl processTrimmed initState) := by
  unfold parseMarkdown
  dsimp only
  congr 1
  rw [show splitNl (trimChars (collapseBlank (normNewlines md.data))) =
        consHead [] (splitNl (trimChars (collapseBlank (normNewlines md.data)))) from
      (consHead_nil_of_ne (splitNl_ne_nil _)).symm,
    foldl_processLine_splitNl, netAux_trimChars]
  unfold collapseBlank
  rw [netAux_collapseGo _ _ le_rfl]

/-- `netAux` computes exactly the non-empty trimmed pieces of the split. -/
lemma netAux_eq_filter (l : List Char) :
    ∀ cur, netAux cur l =
      ((consHead cur (splitNl l)).map trimChars).filter (fun t => !t.isEmpty) := by
  induction l with
  | nil =>
    intro cur
    by_cases h : trimChars cur = [] <;>
      simp [netAux, splitNl, consHead, h, List.isEmpty_iff]
  | cons c rest ih =>
    intro cur
    by_cases hc : c = '\n'
    · subst hc
      have hx : netAux ([] : List Char) rest =
          ((splitNl rest).map trimChars).filter (fun t => !t.isEmpty) := by
        rw [ih [], consHead_nil_of_ne (splitNl_ne_nil rest)]
      have lhs2 : consHead cur (splitNl ('\n' :: rest)) = cur :: splitNl rest := by
        simp [splitNl, consHead]
      rw [lhs2, List.map_cons, List.filter_cons]
      by_cases h : trimChars cur = [] <;> simp [netAux, h, hx, List.isEmpty_iff]
    · have hsh : consHead cur (splitNl (c :: rest)) = consHead (cur ++ [c]) (splitNl rest) := by
        simp only [splitNl, if_neg hc]
        rcases h : splitNl rest with _ | ⟨hd, tl⟩
        · exact absurd h (splitNl_ne_nil rest)
        · simp [consHead]
      rw [hsh, ← ih (cur ++ [c])]
      simp [netAux, hc]

/-- The non-empty trimmed lines of the input markdown (after normalizing
`"\r\n"` line endings), in source order. -/
def nonEmptyTrimmedLines (md : String) : List (List Char) :=
  ((splitNl (normNewlines md.data)).map trimChars).filter (fun t => !t.isEmpty)

lemma nonEmptyTrimmedLines_eq (md : String) :
    netAux [] (normNewlines md.data) = nonEmptyTrimmedLines md := by
  rw [netAux_eq_filter _ [], consHead_nil_of_ne (splitNl_ne_nil _)]
  rfl

/-- A line that fails every classification rule of the loop: no heading,
bullet, numbered-list, code, quote, image or link pattern. -/
def plainLine (t : List Char) : Prop :=
  ¬ ['#', ' '].isPrefixOf t = true ∧ ¬ ['#', '#', ' '].isPrefixOf t = true ∧
    ¬ ['#', '#', '#', ' '].isPrefixOf t = true ∧
    ¬ ['*', ' '].isPrefixOf t = true ∧ ¬ ['-', ' '].isPrefixOf t = true ∧
    stripNumMarker t = none ∧ ¬ ['`'].isPrefixOf t = true ∧ ¬ ['>', ' '].isPrefixOf t = true ∧
    ¬ imageGuard t ∧ ¬ bookmarkGuard t

instance (t : List Char) : Decidable (plainLine t) := by
  unfold plainLine; infer_instance

/-- On a line failing every rule, the loop body takes the paragraph branch
and leaves the (inactive) accumulator alone. -/
lemma processTrimmed_plain {st : ScanState} {t : List Char} (h : plainLine t)
    (hin : st.isInList = false) :
    processTrimmed st t =
      ⟨st.blocks ++ [createParagraph (String.mk t)],
        st.currentList, st.isInList, st.listType⟩ := by
  obtain ⟨h1, h2, h3, h4, h5, h6, h7, h8, h9, h10⟩ := h
  unfold processTrimmed
  rw [if_neg h1, if_neg h2, if_neg h3,
    if_neg (by simp [h4, h5] :
      ¬ (['*', ' '].isPrefixOf t || ['-', ' '].isPrefixOf t) = true),
    if_neg (by simp [h6] : ¬ (stripNumMarker t).isSome = true),
    if_neg h7, if_neg h8, if_neg h9, if_neg h10]
  simp [pushBlocks, flushState, hin]

lemma foldl_plain (ts : List (List Char)) :
    ∀ st : ScanState, st.isInList = false → (∀ t ∈ ts, plainLine t) →
      ts.foldl processTrimmed st =
        ⟨st.blocks ++ ts.map (fun t => createParagraph (String.mk t)),
          st.currentList, st.isInList, st.listType⟩ := by
  induction ts with
  | nil => intro st hin h; simp
  | cons t ts ih =>
    intro st hin h
    rw [List.foldl_cons, processTrimmed_plain (h t (List.mem_cons_self t ts)) hin,
      ih ⟨st.blocks ++ [createParagraph (String.mk t)], st.currentList, st.isInList,
          st.listType⟩
        hin fun t' ht' => h t' (List.mem_cons_of_mem t ht')]
    simp

/-- Claim C3: when every non-empty trimmed line of the input fails every
classification rule, `parseMarkdown` returns exactly one paragraph block per
non-empty trimmed line, in source line order. -/
theorem plain_lines_one_paragraph_each (md : String)
    (h : ∀ t ∈ nonEmptyTrimmedLines md, plainLine t) :
    parseMarkdown md =
      (nonEmptyTrimmedLines md).map (fun t => createParagraph (String.mk t)) := by
  rw [parseMarkdown_eq_netAux, nonEmptyTrimmedLines_eq,
    foldl_plain _ initState rfl h]
  simp [finishScan, initState]

/-- Witness for C3 on a two-line plain document. -/
theorem plain_lines_one_paragraph_each_witness :
    parseMarkdown "hello\nworld" =
      (nonEmptyTrimmedLines "hello\nworld").map (fun t => createParagraph (String.mk t)) :=
  plain_lines_one_paragraph_each "hello\nworld" (by decide)

lemma dropTrailingWs_length_le (l : List Char) : (dropTrailingWs l).length ≤ l.length := by
  have h1 : (List.dropWhile isJsWs l.reverse).length ≤ l.reverse.length :=
    (List.dropWhile_sublist _).length_le
  simpa [dropTrailingWs] using h1

/-- A trimmed line is fixed by both trimming passes separately. -/
lemma trim_parts {l : List Char} (h : trimChars l = l) :
    l.dropWhile isJsWs = l ∧ dropTrailingWs l = l := by
  have hsub : List.Sublist (l.dropWhile isJsWs) l := List.dropWhile_sublist _
  have h2 : (trimChars l).length ≤ (l.dropWhile isJsWs).length := dropTrailingWs_length_le _
  have hlen : (l.dropWhile isJsWs).length = l.length := by
    have := hsub.length_le
    rw [h] at h2
    omega
  have hdw : l.dropWhile isJsWs = l := hsub.eq_of_length hlen
  refine ⟨hdw, ?_⟩
  have h3 := h
  unfold trimChars at h3
  rw [hdw] at h3
  exact h3

/-- A line that starts with a non-whitespace marker character and ends in a
trimmed non-empty tail is itself trimmed. -/
lemma trim_marker_line {c : Char} {t a : List Char} (hc : isJsWs c = false)
    (hdt : dropTrailingWs a = a) (hne : ¬ a = []) :
    trimChars (c :: (t ++ a)) = c :: (t ++ a) := by
  unfold trimChars
  rw [List.dropWhile_cons_of_neg (by simp [hc])]
  unfold dropTrailingWs
  have hrev : (c :: (t ++ a)).reverse = a.reverse ++ (t.reverse ++ [c]) := by simp
  have hadw : a.reverse.dropWhile isJsWs = a.reverse := by
    have h4 := congrArg List.reverse hdt
    simpa [dropTrailingWs] using h4
  rw [hrev, List.dropWhile_append, hadw,
    if_neg (by simp [List.isEmpty_iff, hne] : ¬ (a.reverse.isEmpty = true))]
  simp

/-- A document chunk without newlines followed by a `'\n'` contributes one
line piece. -/
lemma netAux_append_line (x y : List Char) (hx : ¬ '\n' ∈ x) :
    ∀ cur, netAux cur (x ++ '\n' :: y) =
      if trimChars (cur ++ x) = [] then netAux [] y
      else trimChars (cur ++ x) :: netAux [] y := by
  induction x with
  | nil => intro cur; simp [netAux]
  | cons c x' ih =>
    intro cur
    have hc : ¬ c = '\n' := fun h => hx (by rw [h]; exact List.mem_cons_self _ _)
    simp only [List.cons_append, netAux, if_neg hc, List.append_eq]
    rw [ih (fun h => hx (List.mem_cons_of_mem c h)) (cur ++ [c])]
    simp [List.append_assoc]

/-- The trailing chunk without newlines contributes one final line piece. -/
lemma netAux_no_nl (x : List Char) (hx : ¬ '\n' ∈ x) :
    ∀ cur, netAux cur x =
      if trimChars (cur ++ x) = [] then [] else [trimChars (cur ++ x)] := by
  induction x with
  | nil => intro cur; simp [netAux]
  | cons c x' ih =>
    intro cur
    have hc : ¬ c = '\n' := fun h => hx (by rw [h]; exact List.mem_cons_self _ _)
    simp only [netAux, if_neg hc, List.append_eq]
    rw [ih (fun h => hx (List.mem_cons_of_mem c h)) (cur ++ [c])]
    simp [List.append_assoc]

/-- Without a carriage return in the input, `replace(/\r\n/g, '\n')` is the
identity. -/
lemma normGo_id_noCr : ∀ fuel (l : List Char), ¬ '\r' ∈ l → normGo fuel l = l := by
  intro fuel
  induction fuel with
  | zero => intro l _; rfl
  | succ fuel ih =>
    intro l h
    cases l with
    | nil => rfl
    | cons c rest =>
      have hc : ¬ c = '\r' := fun hh => h (by rw [hh]; exact List.mem_cons_self _ _)
      have hcond : ¬ (c = '\r' ∧ rest.take 1 = ['\n']) := fun hh => hc hh.1
      simp only [normGo, if_neg hcond]
      rw [ih rest (fun hh => h (List.mem_cons_of_mem c hh))]

/-- Without a newline in the input, `replace(/\r\n/g, '\n')` is the
identity (no `"\r\n"` pair can occur). -/
lemma normGo_id_noNl : ∀ fuel (l : List Char), ¬ '\n' ∈ l → normGo fuel l = l := by
  intro fuel
  induction fuel with
  | zero => intro l _; rfl
  | succ fuel ih =>
    intro l h
    cases l with
    | nil => rfl
    | cons c rest =>
      have hcond : ¬ (c = '\r' ∧ rest.take 1 = ['\n']) := by
        rintro ⟨-, htk⟩
        obtain ⟨t, ht⟩ := take_one_eq htk
        exact h (by rw [ht]; exact List.mem_cons_of_mem c (List.mem_cons_self _ _))
      simp only [normGo, if_neg hcond]
      rw [ih rest (fun hh => h (List.mem_cons_of_mem c hh))]

/-- A trimmed, non-empty, newline-free document is a single line:
`parseMarkdown` classifies it once and finishes. -/
lemma parseMarkdown_single_line (l : List Char) (hn : ¬ '\n' ∈ l)
    (ht : trimChars l = l) (hne : ¬ l = []) :
    parseMarkdown (String.mk l) = finishScan (processTrimmed initState l) := by
  rw [parseMarkdown_eq_netAux, stringMk_data,
    show normNewlines l = l from normGo_id_noNl _ _ hn,
    netAux_no_nl l hn [], List.nil_append, ht, if_neg hne]
  rfl

/-- A `"- item"` line seen outside a bullet list opens the accumulator and
stores the item text. -/
lemma processTrimmed_bullet_open (a : List Char) :
    processTrimmed initState ('-' :: ' ' :: a) =
      ⟨[], [String.mk a], true, some .bulletList⟩ := by
  simp [processTrimmed, List.isPrefixOf, flushState, initState]

/-- A `"- item"` line seen while a bullet list is open just appends the
item text to the accumulator. -/
lemma processTrimmed_bullet_append (blocks : List NotionBlock) (items : List String)
    (a : List Char) :
    processTrimmed ⟨blocks, items, true, some .bulletList⟩ ('-' :: ' ' :: a) =
      ⟨blocks, items ++ [String.mk a], true, some .bulletList⟩ := by
  simp [processTrimmed, List.isPrefixOf]

/-- A line failing every rule flushes the open accumulator (if any) and
emits one paragraph. -/
lemma processTrimmed_plain_flush {st : ScanState} {t : List Char} (h : plainLine t) :
    processTrimmed st t = pushBlocks (flushState st) [createParagraph (String.mk t)] := by
  obtain ⟨h1, h2, h3, h4, h5, h6, h7, h8, h9, h10⟩ := h
  unfold processTrimmed
  rw [if_neg h1, if_neg h2, if_neg h3,
    if_neg (by simp [h4, h5] :
      ¬ (['*', ' '].isPrefixOf t || ['-', ' '].isPrefixOf t) = true),
    if_neg (by simp [h6] : ¬ (stripNumMarker t).isSome = true),
    if_neg h7, if_neg h8, if_neg h9, if_neg h10]

/-- Claim C4: three consecutive `"- item"` lines yield exactly three
sibling `bulleted_list_item` blocks — one block per accumulated item, each
item independently tokenized — and the following non-list line flushes the
accumulator and starts fresh, producing its own paragraph block with no
carry-over state. -/
theorem three_bullet_lines_three_sibling_blocks (a b c : String)
    (ha1 : ¬ a.data = []) (ha2 : trimChars a.data = a.data)
    (ha3 : ¬ '\n' ∈ a.data) (ha4 : ¬ '\r' ∈ a.data)
    (hb1 : ¬ b.data = []) (hb2 : trimChars b.data = b.data)
    (hb3 : ¬ '\n' ∈ b.data) (hb4 : ¬ '\r' ∈ b.data)
    (hc1 : ¬ c.data = []) (hc2 : trimChars c.data = c.data)
    (hc3 : ¬ '\n' ∈ c.data) (hc4 : ¬ '\r' ∈ c.data) :
    parseMarkdown ("- " ++ a ++ "\n- " ++ b ++ "\n- " ++ c ++ "\nafter") =
      [createBlock "bulleted_list_item" (.richTextP (parseInlineStyles a)),
       createBlock "bulleted_list_item" (.richTextP (parseInlineStyles b)),
       createBlock "bulleted_list_item" (.richTextP (parseInlineStyles c)),
       createParagraph "after"] := by
  have hdoc : ("- " ++ a ++ "\n- " ++ b ++ "\n- " ++ c ++ "\nafter").data =
      ('-' :: ' ' :: a.data) ++ '\n' ::
        (('-' :: ' ' :: b.data) ++ '\n' ::
          (('-' :: ' ' :: c.data) ++ '\n' :: "after".data)) := by
    simp [String.data_append]
  have hnr : ¬ '\r' ∈ ('-' :: ' ' :: a.data) ++ '\n' ::
      (('-' :: ' ' :: b.data) ++ '\n' ::
        (('-' :: ' ' :: c.data) ++ '\n' :: "after".data)) := by
    intro hmem
    simp only [List.mem_append, List.mem_cons] at hmem
    rcases hmem with (h | h | h) | h | (h | h | h) | h | (h | h | h) | h <;>
      first
        | exact absurd h (by decide)
        | exact ha4 h
        | exact hb4 h
        | exact hc4 h
  have hta : trimChars ('-' :: ' ' :: a.data) = '-' :: ' ' :: a.data := by
    simpa using trim_marker_line (t := [' ']) (by decide) (trim_parts ha2).2 ha1
  have htb : trimChars ('-' :: ' ' :: b.data) = '-' :: ' ' :: b.data := by
    simpa using trim_marker_line (t := [' ']) (by decide) (trim_parts hb2).2 hb1
  have htc : trimChars ('-' :: ' ' :: c.data) = '-' :: ' ' :: c.data := by
    simpa using trim_marker_line (t := [' ']) (by decide) (trim_parts hc2).2 hc1
  have hlines : netAux [] (('-' :: ' ' :: a.data) ++ '\n' ::
      (('-' :: ' ' :: b.data) ++ '\n' ::
        (('-' :: ' ' :: c.data) ++ '\n' :: "after".data))) =
      [('-' :: ' ' :: a.data), ('-' :: ' ' :: b.data), ('-' :: ' ' :: c.data),
        "after".data] := by
    rw [netAux_append_line _ _ (by simp [ha3] : ¬ '\n' ∈ '-' :: ' ' :: a.data) [],
      List.nil_append, hta, if_neg (by simp),
      netAux_append_line _ _ (by simp [hb3] : ¬ '\n' ∈ '-' :: ' ' :: b.data) [],
      List.nil_append, htb, if_neg (by simp),
      netAux_append_line _ _ (by simp [hc3] : ¬ '\n' ∈ '-' :: ' ' :: c.data) [],
      List.nil_append, htc, if_neg (by simp),
      show netAux [] "after".data = ["after".data] from by decide]
  rw [parseMarkdown_eq_netAux, hdoc,
    show normNewlines (('-' :: ' ' :: a.data) ++ '\n' ::
        (('-' :: ' ' :: b.data) ++ '\n' ::
          (('-' :: ' ' :: c.data) ++ '\n' :: "after".data))) = _ from
      normGo_id_noCr _ _ hnr,
    hlines]
  rw [show ([('-' :: ' ' :: a.data), ('-' :: ' ' :: b.data), ('-' :: ' ' :: c.data),
        "after".data].foldl processTrimmed initState) =
      processTrimmed (processTrimmed (processTrimmed
        (processTrimmed initState ('-' :: ' ' :: a.data)) ('-' :: ' ' :: b.data))
        ('-' :: ' ' :: c.data)) "after".data from rfl,
    processTrimmed_bullet_open, processTrimmed_bullet_append,
    processTrimmed_bullet_append,
    processTrimmed_plain_flush (by decide : plainLine "after".data)]
  simp [finishScan, flushState, pushBlocks, flushListBlocks, createBulletList,
    createParagraph]

/-- Witness for C4 on three concrete items. -/
theorem three_bullet_lines_three_sibling_blocks_witness :
    parseMarkdown ("- " ++ "one" ++ "\n- " ++ "two" ++ "\n- " ++ "three" ++ "\nafter") =
      [createBlock "bulleted_list_item" (.richTextP (parseInlineStyles "one")),
       createBlock "bulleted_list_item" (.richTextP (parseInlineStyles "two")),
       createBlock "bulleted_list_item" (.richTextP (parseInlineStyles "three")),
       createParagraph "after"] :=
  three_bullet_lines_three_sibling_blocks "one" "two" "three"
    (by decide) (by decide) (by decide) (by decide)
    (by decide) (by decide) (by decide) (by decide)
    (by decide) (by decide) (by decide) (by decide)

lemma isPrefixOf_two {c d : Char} {l : List Char} (h : [c, d].isPrefixOf l = true) :
    ∃ t, l = c :: d :: t := by
  cases l with
  | nil => simp [List.isPrefixOf] at h
  | cons x l' =>
    cases l' with
    | nil => simp [List.isPrefixOf] at h
    | cons y t =>
      simp [List.isPrefixOf] at h
      exact ⟨t, by rw [h.1, h.2]⟩

lemma findSubIdx_isSome_of_prefix {pat : List Char} :
    ∀ {n : Nat} {l : List Char}, pat.isPrefixOf (l.drop n) = true →
      (findSubIdx pat l).isSome = true := by
  intro n
  induction n with
  | zero =>
    intro l h
    cases l <;> simp [findSubIdx, List.drop] at h ⊢ <;> simp [h]
  | succ n ih =>
    intro l h
    cases l with
    | nil => simp [List.drop] at h; simp [findSubIdx, h]
    | cons c rest =>
      by_cases hp : pat.isPrefixOf (c :: rest) = true
      · simp [findSubIdx, hp]
      · simp only [findSubIdx, if_neg hp, Option.isSome_map']
        exact ih (by simpa [List.drop] using h)

lemma findSubIdx_matches_at {pat : List Char} :
    ∀ {l : List Char} {q : Nat}, findSubIdx pat l = some q →
      pat.isPrefixOf (l.drop q) = true := by
  intro l
  induction l with
  | nil =>
    intro q h
    simp only [findSubIdx] at h
    split_ifs at h with hp
    cases h; simpa using hp
  | cons c rest ih =>
    intro q h
    simp only [findSubIdx] at h
    split_ifs at h with hp
    · cases h; simpa using hp
    · rcases hq : findSubIdx pat rest with _ | q'
      · rw [hq] at h; cases h
      · rw [hq] at h
        simp at h
        rw [← h]
        simpa [List.drop] using ih hq

lemma findSubIdx_single_isSome_of_mem {a : Char} {l : List Char} (h : a ∈ l) :
    (findSubIdx [a] l).isSome = true := by
  induction l with
  | nil => simp at h
  | cons c rest ih =>
    by_cases hc : a = c
    · subst hc
      simp [findSubIdx, List.isPrefixOf]
    · have : a ∈ rest := by
        rcases List.mem_cons.mp h with h' | h'
        · exact absurd h' hc
        · exact h'
      by_cases hp : ([a] : List Char).isPrefixOf (c :: rest) = true
      · simp [findSubIdx, hp]
      · simp only [findSubIdx, if_neg hp, Option.isSome_map']
        exact ih this

/-- On an image-guarded line the whole loop body reduces to the flush plus
whatever the parenthesis capture dictates, whatever the current state. -/
lemma processTrimmed_imageGuard {l : List Char} (hg : imageGuard l) (st : ScanState) :
    processTrimmed st l =
      match firstParenCapture l with
      | none => flushState st
      | some url => pushBlocks (flushState st) [createImage (String.mk url)] := by
  obtain ⟨t, hline⟩ := isPrefixOf_two hg.1
  subst hline
  unfold processTrimmed
  rw [if_neg (by simp [List.isPrefixOf]), if_neg (by simp [List.isPrefixOf]),
    if_neg (by simp [List.isPrefixOf]),
    if_neg (by simp [List.isPrefixOf]),
    if_neg (by simp [stripNumMarker]),
    if_neg (by simp [List.isPrefixOf]), if_neg (by simp [List.isPrefixOf]),
    if_pos hg]

/-- On a bookmark-guarded line the loop body reduces to the flush plus
whatever the bracket-parenthesis captures dictate, whatever the current
state. -/
lemma processTrimmed_bookmarkGuard {l : List Char} (hg : bookmarkGuard l) (st : ScanState) :
    processTrimmed st l =
      match bookmarkMatch l with
      | none => flushState st
      | some (text, url) =>
          pushBlocks (flushState st) [createBookmark (String.mk url) (String.mk text)] := by
  obtain ⟨t, hline⟩ : ∃ t, l = '[' :: t := by
    have hpre := hg.1
    cases h : l with
    | nil => rw [h] at hpre; simp [List.isPrefixOf] at hpre
    | cons x l' =>
      rw [h] at hpre
      simp [List.isPrefixOf] at hpre
      exact ⟨l', by rw [hpre]⟩
  subst hline
  unfold processTrimmed
  rw [if_neg (by simp [List.isPrefixOf]), if_neg (by simp [List.isPrefixOf]),
    if_neg (by simp [List.isPrefixOf]),
    if_neg (by simp [List.isPrefixOf]),
    if_neg (by simp [stripNumMarker]),
    if_neg (by simp [List.isPrefixOf]), if_neg (by simp [List.isPrefixOf]),
    if_neg (by
      rintro ⟨himg, -⟩
      simp [List.isPrefixOf] at himg),
    if_pos hg]

/-- Claim C5: a line satisfying the image guard produces exactly the block
the parenthesis capture dictates — one image block whose external url is
the substring between the first `'('` of the line and the first `')'` after
it, and no block at all if the capture fails (the silent `continue`). -/
theorem image_line_one_image_block (line : String) (hg : imageGuard line.data)
    (ht : trimChars line.data = line.data) (hn : ¬ '\n' ∈ line.data) :
    parseMarkdown line =
      match firstParenCapture line.data with
      | some url => [createImage (String.mk url)]
      | none => [] := by
  obtain ⟨t, hline⟩ := isPrefixOf_two hg.1
  have hne : ¬ line.data = [] := by rw [hline]; simp
  have hmaster : parseMarkdown line = finishScan (processTrimmed initState line.data) :=
    parseMarkdown_single_line line.data hn ht hne
  rw [hmaster, processTrimmed_imageGuard hg initState]
  rcases hcap : firstParenCapture line.data with _ | url <;>
    simp [hcap, finishScan, pushBlocks, flushState, initState]

/-- Witness for C5: `parse("![alt](http://x/y.png)")` yields one image
block with url `http://x/y.png`. -/
theorem image_line_one_image_block_witness :
    parseMarkdown "![alt](http://x/y.png)" = [createImage "http://x/y.png"] := by
  rw [image_line_one_image_block "![alt](http://x/y.png)" (by decide) (by decide) (by decide)]
  decide

/-- Claim C6: a line satisfying the bookmark guard produces exactly the
block the regex captures dictate — one bookmark block whose url is the
second capture and whose caption is `tokenize(first capture)` when the
first capture is non-empty and the empty rich-text sequence otherwise; no
block at all if the match fails (the silent `continue`). -/
theorem bookmark_line_one_bookmark_block (line : String) (hg : bookmarkGuard line.data)
    (ht : trimChars line.data = line.data) (hn : ¬ '\n' ∈ line.data) :
    parseMarkdown line =
      match bookmarkMatch line.data with
      | some (text, url) =>
          [createBlock "bookmark" (.bookmarkP (String.mk url)
            (if text = [] then [] else parseInlineStyles (String.mk text)))]
      | none => [] := by
  have hpre : ['['].isPrefixOf line.data = true := hg.1
  have hne : ¬ line.data = [] := by
    intro h
    rw [h] at hpre
    simp [List.isPrefixOf] at hpre
  have hmaster : parseMarkdown line = finishScan (processTrimmed initState line.data) :=
    parseMarkdown_single_line line.data hn ht hne
  rw [hmaster, processTrimmed_bookmarkGuard hg initState]
  rcases hcap : bookmarkMatch line.data with _ | ⟨text, url⟩ <;>
    simp [hcap, finishScan, pushBlocks, flushState, initState, createBookmark]
  by_cases htext : text = []
  · simp [htext, show String.mk ([] : List Char) = "" from rfl]
  · rw [if_neg (by simpa [String.ext_iff] using htext), if_neg htext]

/-- Witness for C6: `parse("[Click](http://x)")` yields one bookmark block
with url `http://x` and caption tokenized from `"Click"`. -/
theorem bookmark_line_one_bookmark_block_witness :
    parseMarkdown "[Click](http://x)" =
      [createBlock "bookmark" (.bookmarkP "http://x" (parseInlineStyles "Click"))] := by
  rw [bookmark_line_one_bookmark_block "[Click](http://x)" (by decide) (by decide) (by decide)]
  decide

lemma isPrefixOf_one {c : Char} {l : List Char} (h : [c].isPrefixOf l = true) :
    ∃ t, l = c :: t := by
  cases l with
  | nil => simp [List.isPrefixOf] at h
  | cons x l' =>
    simp [List.isPrefixOf] at h
    exact ⟨l', by rw [h]⟩

lemma getLast?_cons' {c : Char} {rest : List Char} (h : ¬ rest = []) :
    (c :: rest).getLast? = rest.getLast? := by
  cases rest with
  | nil => exact absurd rfl h
  | cons d t => exact List.getLast?_cons_cons

/-- With no line terminator in the way, the lazy capture reaches a closing
character that ends the scanned text. -/
lemma capTo_append_close (close : Char) {x : List Char}
    (hnt : ∀ ch ∈ x, isLineTerm ch = false) :
    (capTo close (x ++ [close])).isSome = true := by
  induction x with
  | nil => simp [capTo]
  | cons c x' ih =>
    by_cases hc : c = close
    · simp [capTo, hc]
    · have hcterm := hnt c (List.mem_cons_self c x')
      simp [capTo, hc, hcterm, Option.isSome_map']
      exact ih fun ch hch => hnt ch (List.mem_cons_of_mem c hch)

/-- A terminator-free text that contains a `'('` and then ends in `')'`
always yields a parenthesis capture. -/
lemma firstParenCapture_isSome_append {m : List Char}
    (hnt : ∀ ch ∈ m, isLineTerm ch = false) (hmem : '(' ∈ m) :
    (firstParenCapture (m ++ [')'])).isSome = true := by
  induction m with
  | nil => simp at hmem
  | cons c m' ih =>
    by_cases hc : c = '('
    · subst hc
      have hcap := capTo_append_close ')'
        (fun ch hch => hnt ch (List.mem_cons_of_mem _ hch))
      obtain ⟨cap, hcap'⟩ := Option.isSome_iff_exists.mp hcap
      simp [firstParenCapture, List.append_eq, hcap']
    · have hmem' : '(' ∈ m' := by
        rcases List.mem_cons.mp hmem with h | h
        · exact absurd h.symm hc
        · exact h
      simp only [List.cons_append, firstParenCapture, if_neg hc, List.append_eq]
      exact ih (fun ch hch => hnt ch (List.mem_cons_of_mem c hch)) hmem'

/-- On a terminator-free line the image guard forces the `/\((.*?)\)/`
match to succeed: the line contains a `'('` (inside its `"]("`), the final
`')'` stands after it, and no line terminator can block the capture. -/
lemma firstParenCapture_guard_isSome {l : List Char} (hg : imageGuard l)
    (hnt : ∀ ch ∈ l, isLineTerm ch = false) :
    (firstParenCapture l).isSome = true := by
  obtain ⟨q, hq⟩ := Option.isSome_iff_exists.mp
    (show (findSubIdx [']', '('] l).isSome = true from hg.2.1)
  obtain ⟨t, htq⟩ := isPrefixOf_two (findSubIdx_matches_at hq)
  have hparen : '(' ∈ l :=
    List.drop_subset q l (by
      rw [htq]
      exact List.mem_cons_of_mem _ (List.mem_cons_self _ _))
  obtain ⟨m, hm⟩ := List.getLast?_eq_some_iff.mp hg.2.2
  have hparenm : '(' ∈ m := by
    rw [hm] at hparen
    rcases List.mem_append.mp hparen with h | h
    · exact h
    · rw [List.mem_singleton] at h
      exact absurd h (by decide)
  rw [hm]
  exact firstParenCapture_isSome_append
    (fun ch hch => hnt ch (by rw [hm]; exact List.mem_append_left _ hch)) hparenm

/-- A terminator-free text that contains a `"]("` and ends in `')'` always
yields the two bookmark captures: the scan reaches a `"]("` candidate and
the second capture reaches the final `')'`. -/
lemma bmTryFuel_isSome :
    ∀ (fuel : Nat) (x : List Char), x.length ≤ fuel →
      (∀ ch ∈ x, isLineTerm ch = false) →
      (∃ q, [']', '('].isPrefixOf (x.drop q) = true) →
      x.getLast? = some ')' →
      (bmTryFuel fuel x).isSome = true := by
  intro fuel
  induction fuel with
  | zero =>
    intro x hlen hnt hq hlast
    rw [List.length_eq_zero.mp (Nat.le_zero.mp hlen)] at hq
    obtain ⟨q, hq⟩ := hq
    simp [List.isPrefixOf] at hq
  | succ fuel ih =>
    intro x hlen hnt hq hlast
    obtain ⟨q, hq⟩ := hq
    cases x with
    | nil => simp [List.isPrefixOf] at hq
    | cons c rest =>
      by_cases hcand : c = ']' ∧ rest.take 1 = ['(']
      · obtain ⟨r2, hr2⟩ := take_one_eq hcand.2
        have hrne : ¬ rest = [] := by rw [hr2]; simp
        have hlast1 : rest.getLast? = some ')' := by
          rw [← getLast?_cons' hrne]
          exact hlast
        have hr2ne : ¬ r2 = [] := by
          intro h0
          rw [hr2, h0] at hlast1
          exact absurd hlast1 (by decide)
        have hlast2 : r2.getLast? = some ')' := by
          rw [hr2] at hlast1
          rw [← getLast?_cons' hr2ne]
          exact hlast1
        obtain ⟨z, hz⟩ := List.getLast?_eq_some_iff.mp hlast2
        have hcap : (capTo ')' (rest.drop 1)).isSome = true := by
          rw [hr2, show (('(' :: r2).drop 1) = r2 from rfl, hz]
          exact capTo_append_close ')' fun ch hch =>
            hnt ch (by
              rw [hr2]
              exact List.mem_cons_of_mem c (List.mem_cons_of_mem '('
                (by rw [hz]; exact List.mem_append_left _ hch)))
        obtain ⟨cap2, hcap2⟩ := Option.isSome_iff_exists.mp hcap
        simp only [bmTryFuel]
        rw [if_pos hcand, hcap2]
        rfl
      · have hcterm : isLineTerm c = false := hnt c (List.mem_cons_self c rest)
        have hq0 : ¬ q = 0 := by
          intro h0
          rw [h0, List.drop_zero] at hq
          obtain ⟨t, ht⟩ := isPrefixOf_two hq
          injection ht with h1 h2
          exact hcand ⟨h1, by rw [h2]; rfl⟩
        obtain ⟨qm, hqm⟩ : ∃ qm, q = qm + 1 := ⟨q - 1, by omega⟩
        have hq' : [']', '('].isPrefixOf (rest.drop qm) = true := by
          rw [hqm] at hq
          simpa [List.drop_succ_cons] using hq
        have hrne : ¬ rest = [] := by
          intro h0
          rw [h0] at hq'
          simp [List.isPrefixOf] at hq'
        have hlast' : rest.getLast? = some ')' := by
          rw [← getLast?_cons' hrne]
          exact hlast
        simp only [bmTryFuel]
        rw [if_neg hcand, if_neg (by simp [hcterm]), Option.isSome_map']
        exact ih rest (by simpa using Nat.le_of_succ_le_succ hlen)
          (fun ch hch => hnt ch (List.mem_cons_of_mem c hch)) ⟨qm, hq'⟩ hlast'

/-- On a terminator-free line the bookmark guard forces the
`/\[(.*?)\]\((.*?)\)/` match to succeed. -/
lemma bookmarkMatch_guard_isSome {l : List Char} (hg : bookmarkGuard l)
    (hnt : ∀ ch ∈ l, isLineTerm ch = false) :
    (bookmarkMatch l).isSome = true := by
  obtain ⟨t0, hl0⟩ := isPrefixOf_one hg.1
  obtain ⟨q, hq⟩ := Option.isSome_iff_exists.mp
    (show (findSubIdx [']', '('] l).isSome = true from hg.2.1)
  have hqpre := findSubIdx_matches_at hq
  have hq0 : ¬ q = 0 := by
    intro h0
    rw [h0, List.drop_zero, hl0] at hqpre
    obtain ⟨t, ht⟩ := isPrefixOf_two hqpre
    injection ht with h1 _
    exact absurd h1 (by decide)
  obtain ⟨qm, hqm⟩ : ∃ qm, q = qm + 1 := ⟨q - 1, by omega⟩
  have hq' : [']', '('].isPrefixOf (t0.drop qm) = true := by
    rw [hl0, hqm] at hqpre
    simpa [List.drop_succ_cons] using hqpre
  have ht0ne : ¬ t0 = [] := by
    intro h0
    rw [h0] at hq'
    simp [List.isPrefixOf] at hq'
  have hlast' : t0.getLast? = some ')' := by
    have h3 := hg.2.2
    rw [hl0, getLast?_cons' ht0ne] at h3
    exact h3
  have hbm := bmTryFuel_isSome t0.length t0 le_rfl
    (fun ch hch => hnt ch (by rw [hl0]; exact List.mem_cons_of_mem _ hch))
    ⟨qm, hq'⟩ hlast'
  obtain ⟨caps, hcaps⟩ := Option.isSome_iff_exists.mp hbm
  rw [hl0]
  simp only [bookmarkMatch, if_pos rfl]
  rw [hcaps]
  rfl

/-- Claim C10 counterexample: the silent-skip branch **is** reachable — a
guard-satisfying line with a bare `'\r'` between the delimiters makes the
regular-expression match fail (ECMAScript `.` does not match line
terminators, and a `'\r'` not followed by `'\n'` survives preprocessing),
so the loop emits no block for it. -/
theorem guarded_line_match_can_fail :
    imageGuard "![x](a\rb)".data ∧ firstParenCapture "![x](a\rb)".data = none ∧
      (processTrimmed initState "![x](a\rb)".data).blocks = [] ∧
      bookmarkGuard "[a\rb](u)".data ∧ bookmarkMatch "[a\rb](u)".data = none ∧
      (processTrimmed initState "[a\rb](u)".data).blocks = [] := by
  decide

/-- Claim C10 (amended): for every line satisfying the image guard or the
bookmark guard that contains no line-terminator character, the
corresponding regular-expression match succeeds, so on such lines the
silent-skip branch is not taken and the loop body emits exactly one block
(beyond any pending list flush); a guarded line whose capture would have
to cross a line terminator fails the match and is silently skipped. -/
theorem guard_match_succeeds_without_terminators (l : List Char)
    (hterm : ∀ ch ∈ l, isLineTerm ch = false) :
    (imageGuard l → (firstParenCapture l).isSome = true ∧
      ∀ st, (processTrimmed st l).blocks.length = (flushState st).blocks.length + 1) ∧
    (bookmarkGuard l → (bookmarkMatch l).isSome = true ∧
      ∀ st, (processTrimmed st l).blocks.length = (flushState st).blocks.length + 1) := by
  constructor
  · intro hg
    have hcap := firstParenCapture_guard_isSome hg hterm
    obtain ⟨u, hu⟩ := Option.isSome_iff_exists.mp hcap
    refine ⟨hcap, fun st => ?_⟩
    rw [processTrimmed_imageGuard hg st, hu]
    simp [pushBlocks]
  · intro hg
    have hcap := bookmarkMatch_guard_isSome hg hterm
    obtain ⟨u, hu⟩ := Option.isSome_iff_exists.mp hcap
    obtain ⟨text, url⟩ := u
    refine ⟨hcap, fun st => ?_⟩
    rw [processTrimmed_bookmarkGuard hg st, hu]
    simp [pushBlocks]

/-- Witness for C10 (amended) on concrete terminator-free lines. -/
theorem guard_match_succeeds_without_terminators_witness :
    (firstParenCapture "![a](u)".data).isSome = true ∧
      (bookmarkMatch "[a](u)".data).isSome = true ∧
      (processTrimmed initState "![a](u)".data).blocks.length =
        (flushState initState).blocks.length + 1 :=
  ⟨((guard_match_succeeds_without_terminators "![a](u)".data (by decide)).1 (by decide)).1,
   ((guard_match_succeeds_without_terminators "[a](u)".data (by decide)).2 (by decide)).1,
   ((guard_match_succeeds_without_terminators "![a](u)".data (by decide)).1 (by decide)).2
     initState⟩

/-- Claim C7 counterexample: a request whose method field is supplied as
the **empty string** is "a method that is supplied and is not POST"
(case-insensitively, `"" ≠ "post"`), yet `main` does not return 405 — the
JavaScript truthiness check `args.__ow_method && ...` skips the gate and
the request is processed normally (here: 200). -/
theorem main_empty_method_skips_405 :
    ¬ lowerStr "" = "post" ∧
      ¬ (main ⟨some "x", some "", none⟩).statusCode = 405 ∧
      (main ⟨some "x", some "", none⟩).statusCode = 200 := by
  decide

lemma mainWith_method_gate (conv : String → Except String (List NotionBlock))
    (args : MainArgs) (h : methodRejected args = true) :
    mainWith conv args = methodNotAllowedResp := by
  unfold mainWith
  rw [if_pos h]

lemma mainWith_content_gate (conv : String → Except String (List NotionBlock))
    (args : MainArgs) (h1 : methodRejected args = false)
    (h2 : contentTypeRejected args = true) :
    mainWith conv args = unsupportedMediaResp := by
  unfold mainWith
  rw [if_neg (by simp [h1]), if_pos h2]

lemma mainWith_md_gate (conv : String → Except String (List NotionBlock))
    (args : MainArgs) (h1 : methodRejected args = false)
    (h2 : contentTypeRejected args = false)
    (h3 : args.md = none ∨ args.md = some "") :
    mainWith conv args = badRequestResp := by
  unfold mainWith
  rw [if_neg (by simp [h1]), if_neg (by simp [h2])]
  rcases h3 with h3 | h3 <;> simp [h3]

lemma mainWith_convert (conv : String → Except String (List NotionBlock))
    (args : MainArgs) (s : String) (h1 : methodRejected args = false)
    (h2 : contentTypeRejected args = false)
    (hmd : args.md = some s) (hs : ¬ s = "") :
    mainWith conv args =
      match conv s with
      | .ok blocks => okResp blocks
      | .error e => errorResp e := by
  unfold mainWith
  rw [if_neg (by simp [h1]), if_neg (by simp [h2]), hmd]
  dsimp only
  rw [if_neg hs]

/-- Claim C7 (amended): `main` applies its gates in order — a supplied
**non-empty** method that is not POST (case-insensitive) gives 405 with
`Allow: POST` and no blocks; otherwise a present **non-empty** content type
not including `application/json` gives 415; otherwise a missing or empty
`md` gives 400 with an error and no blocks; otherwise conversion success
gives 200 with `{ children: blocks }`; and a conversion failure is caught
and returned as 500 with a message embedding the failure text.  (The code
skips the first two gates when the supplied method or content-type value is
the empty string — JavaScript truthiness — which is the only divergence
from the claim as stated.) -/
theorem main_request_gates (args : MainArgs)
    (conv : String → Except String (List NotionBlock)) :
    (∀ m, args.__ow_method = some m → ¬ m = "" → ¬ lowerStr m = "post" →
      main args = methodNotAllowedResp) ∧
    (methodRejected args = false → contentTypeRejected args = true →
      main args = unsupportedMediaResp) ∧
    (methodRejected args = false → contentTypeRejected args = false →
      (args.md = none ∨ args.md = some "") → main args = badRequestResp) ∧
    (∀ s, methodRejected args = false → contentTypeRejected args = false →
      args.md = some s → ¬ s = "" → main args = okResp (parseMarkdown s)) ∧
    (∀ s e, methodRejected args = false → contentTypeRejected args = false →
      args.md = some s → ¬ s = "" → conv s = Except.error e →
      mainWith conv args = errorResp e) := by
  refine ⟨?_, ?_, ?_, ?_, ?_⟩
  · intro m hm hne hpost
    have hrej : methodRejected args = true := by
      unfold methodRejected
      rw [hm]
      simp [hne, hpost]
    exact mainWith_method_gate _ args hrej
  · intro h1 h2
    exact mainWith_content_gate _ args h1 h2
  · intro h1 h2 h3
    exact mainWith_md_gate _ args h1 h2 h3
  · intro s h1 h2 hmd hs
    exact mainWith_convert _ args s h1 h2 hmd hs
  · intro s e h1 h2 hmd hs hconv
    rw [mainWith_convert conv args s h1 h2 hmd hs, hconv]

/-- Witness for C7: a well-formed POST with JSON content type converts to a
200 with the parsed blocks. -/
theorem main_request_gates_witness :
    main ⟨some "# T", some "POST", some [("content-type", "application/json")]⟩ =
      okResp (parseMarkdown "# T") :=
  (main_request_gates ⟨some "# T", some "POST", some [("content-type", "application/json")]⟩
      (fun s => .ok (parseMarkdown s))).2.2.2.1 "# T"
    (by decide) (by decide) rfl (by decide)

end MdToNotion
